import Mathlib

/-!
Verification of the tcprofiles tool (a Go program that merges a profile-based
configuration template into a flat key=value document).

Strings of the Go program are modelled as lists of characters (`Str`); the
program only ever manipulates them character-wise (trimming, splitting at
separators, character-class tests), so this embedding is faithful for every
valid UTF-8 input.  Functions keep the names of the Go functions they embed
(`parseTemplate`, `getProfiles`, `fillConfig`, `lastIndex`, ...).
-/

/-- Character strings of the Go program, modelled as lists of characters. -/
abbrev Str := List Char

/-- The reserved profile name, Go constant `defaultProfileName = "default"`. -/
def defaultProfileName : Str := "default".toList

/-- Go `type kv struct{ key, value string }` (main.go line 125). -/
structure kv where
  key : Str
  value : Str
deriving DecidableEq

/-- Go `type sectionLine struct { profile string; setting kv }` (main.go lines 126-129). -/
structure sectionLine where
  profile : Str
  setting : kv
deriving DecidableEq

/-! ## Character classes and trimming

Go regexp `\w` is the ASCII class `[0-9A-Za-z_]`; `strings.TrimSpace` strips
leading and trailing white space (modelled here for the ASCII white-space
characters, which are the only ones occurring in config files). -/

/-- The Go regexp character class `\w` = `[0-9A-Za-z_]`. -/
def isWordChar (c : Char) : Bool := c.isAlpha || c.isDigit || c == '_'

/-- ASCII white space stripped by Go `strings.TrimSpace`. -/
def isSpaceChar (c : Char) : Bool :=
  c == ' ' || c == '\t' || c == '\n' || c == '\r' || c == '\x0b' || c == '\x0c'

/-- Go `strings.TrimSpace`: drop white space from both ends of the line. -/
def trimStr (cs : Str) : Str :=
  ((cs.dropWhile isSpaceChar).reverse.dropWhile isSpaceChar).reverse

/-! ## The merge (`fillConfig`, main.go lines 269-297)

`fillConfig` clones the template into `templateCache` (`slices.Clone`
guarantees a fresh backing array, so writes to the cache can never reach the
caller's slice), then for each profile of the effective application order
scans the cache, removing every record of that profile and appending its
setting to `settings`; `settingIdx` maps each key to the index of the last
`settings` entry that set it, and the final loop emits exactly the entries
whose index is still current for their key.

The mutable locals of the Go function become the fields of an explicit state
record `FillState`; the caller's `template` slice is a field of its own so the
frame property (the template is never written) is a theorem, not a modelling
assumption. -/

/-- The mutable state of `fillConfig`'s resolution loop: the caller's
`template` slice (never written), the cloned `templateCache`, and the
`settings` sequence accumulated so far. -/
structure FillState where
  template : List sectionLine
  cache : List sectionLine
  settings : List kv
deriving DecidableEq

/-- One iteration of the outer loop of `fillConfig` (main.go lines 280-290):
scanning the cache left to right, every record of profile `p` is removed and
its setting appended, in order.  The net effect of the scan is that the cache
keeps exactly the non-matching records (in order) and the settings sequence
grows by the matching records' settings (in order). -/
def applyProfile (p : Str) (st : FillState) : FillState :=
  { template := st.template
    cache := st.cache.filter (fun sl => !(sl.profile == p))
    settings := st.settings ++ (st.cache.filter (fun sl => sl.profile == p)).map sectionLine.setting }

/-- The outer loop of `fillConfig` over the effective application order. -/
def fillLoop : List Str → FillState → FillState
  | [], st => st
  | p :: ps, st => fillLoop ps (applyProfile p st)

/-- Selection normalisation (main.go lines 272-274): a leading "default" is
dropped from the explicit selection.  Go indexes `selected[0]`, so the
function is only ever invoked on a non-empty selection. -/
def normalizeSelected : List Str → List Str
  | [] => []
  | p :: ps => if p = defaultProfileName then ps else p :: ps

/-- The final state of `fillConfig`'s resolution loop: the cache starts as a
clone of the template, and the application order is `["default"] ++` the
normalised selection (main.go lines 276-290). -/
def fillState (template : List sectionLine) (selected : List Str) : FillState :=
  fillLoop (defaultProfileName :: normalizeSelected selected)
    { template := template, cache := template, settings := [] }

/-- The full `settings` sequence accumulated by `fillConfig`'s resolution
loop, before the emission filter. -/
def fillConfigSettings (template : List sectionLine) (selected : List Str) : List kv :=
  (fillState template selected).settings

/-- Go map `settingIdx` at key `k` after all appends: the index of the last
entry of `settings` whose key is `k` (each append overwrote the map entry for
its key with the new index, main.go line 286). -/
def lastIdxOf (k : Str) : List kv → Option Nat
  | [] => none
  | s :: rest =>
    match lastIdxOf k rest with
    | some i => some (i + 1)
    | none => if s.key = k then some 0 else none

/-- The emission loop of `fillConfig` (main.go lines 292-296): iterate
`settings` with its index and print exactly the entries whose index equals
`settingIdx` of their key.  `full` is the complete settings list (the map is
fully built before emission starts), `i` the current index. -/
def emitFrom (full : List kv) : Nat → List kv → List kv
  | _, [] => []
  | i, s :: rest =>
    if lastIdxOf s.key full = some i then s :: emitFrom full (i + 1) rest
    else emitFrom full (i + 1) rest

/-- The list of key=value lines emitted by `fillConfig`. -/
def fillConfigKVs (template : List sectionLine) (selected : List Str) : List kv :=
  emitFrom (fillConfigSettings template selected) 0 (fillConfigSettings template selected)

/-- The header comment `fillConfig` writes first (main.go line 270). -/
def configHeader : Str := "# Generated by tcprofiles command\n\n".toList

/-- Rendering of the emitted settings as `key=value` lines (main.go line 294). -/
def renderSettings : List kv → Str
  | [] => []
  | s :: rest => s.key ++ '=' :: (s.value ++ '\n' :: renderSettings rest)

/-- The full text `fillConfig` writes to the builder. -/
def fillConfig (template : List sectionLine) (selected : List Str) : Str :=
  configHeader ++ renderSettings (fillConfigKVs template selected)

/-! ### Last-write filtering, abstractly

`emitFrom full 0 full` keeps exactly the last occurrence of each key, in the
position of that last occurrence.  `dedupLast` states this recursively; the
two are proved equal below and all reasoning goes through `dedupLast`. -/

/-- Keep an entry exactly when no later entry has the same key. -/
def dedupLast : List kv → List kv
  | [] => []
  | s :: rest =>
    if rest.any (fun t => t.key == s.key) then dedupLast rest
    else s :: dedupLast rest

theorem lastIdxOf_eq_none {k : Str} {L : List kv} :
    lastIdxOf k L = none ↔ ∀ t ∈ L, t.key ≠ k := by
  induction L with
  | nil => simp [lastIdxOf]
  | cons s rest ih =>
    constructor
    · intro h t ht hk
      simp only [lastIdxOf] at h
      rcases List.mem_cons.mp ht with rfl | ht
      · cases hrest : lastIdxOf k rest with
        | some i => rw [hrest] at h; exact absurd h (by simp)
        | none => rw [hrest] at h; rw [if_pos hk] at h; exact absurd h (by simp)
      · cases hrest : lastIdxOf k rest with
        | some i => rw [hrest] at h; exact absurd h (by simp)
        | none => exact (ih.mp hrest t ht) hk
    · intro h
      simp only [lastIdxOf]
      rw [ih.mpr (fun t ht => h t (List.mem_cons_of_mem _ ht))]
      rw [if_neg (h s (List.mem_cons_self _ _))]

theorem lastIdxOf_append {k : Str} (pre : List kv) {L : List kv} {i : Nat} :
    lastIdxOf k (pre ++ L) = some (pre.length + i) ↔ lastIdxOf k L = some i := by
  induction pre with
  | nil => simp
  | cons p pre ih =>
    simp only [List.cons_append, lastIdxOf, List.length_cons]
    cases h : lastIdxOf k (pre ++ L) with
    | some j =>
      constructor
      · intro hj
        have : j + 1 = pre.length + 1 + i := by simpa using hj
        have hji : j = pre.length + i := by omega
        exact ih.mp (by rw [h, hji])
      · intro hL
        have := ih.mpr hL
        rw [h] at this
        have : j = pre.length + i := by simpa using this
        simp only [Option.some.injEq]
        omega
    | none =>
      constructor
      · intro hj
        by_cases hp : p.key = k
        · simp only [if_pos hp, Option.some.injEq] at hj
          omega
        · simp [if_neg hp] at hj
      · intro hL
        exact absurd (ih.mpr hL) (by simp [h])

theorem emitFrom_eq_dedupLast (pre : List kv) :
    ∀ L : List kv, emitFrom (pre ++ L) pre.length L = dedupLast L := by
  intro L
  induction L generalizing pre with
  | nil => rfl
  | cons s rest ih =>
    have hcond : lastIdxOf s.key (pre ++ s :: rest) = some pre.length ↔
        ∀ t ∈ rest, t.key ≠ s.key := by
      have h0 : lastIdxOf s.key (pre ++ s :: rest) = some (pre.length + 0) ↔
          lastIdxOf s.key (s :: rest) = some 0 := lastIdxOf_append pre
      simp only [Nat.add_zero] at h0
      rw [h0]
      simp only [lastIdxOf]
      cases h : lastIdxOf s.key rest with
      | some j =>
        simp only [Option.some.injEq]
        constructor
        · intro hj
          omega
        · intro hall
          exact absurd (lastIdxOf_eq_none.mpr hall) (by simp [h])
      | none =>
        simp only [if_pos rfl]
        exact ⟨fun _ => lastIdxOf_eq_none.mp h, fun _ => rfl⟩
    have hih : emitFrom (pre ++ s :: rest) (pre.length + 1) rest = dedupLast rest := by
      have : pre ++ s :: rest = (pre ++ [s]) ++ rest := by simp
      rw [this]
      have hlen : pre.length + 1 = (pre ++ [s]).length := by simp
      rw [hlen]
      exact ih (pre ++ [s])
    simp only [emitFrom, dedupLast]
    by_cases h : ∀ t ∈ rest, t.key ≠ s.key
    · rw [if_pos (hcond.mpr h), if_neg (by simpa using h), hih]
    · rw [if_neg (fun hc => h (hcond.mp hc)), if_pos (by push_neg at h; simpa using h), hih]

theorem fillConfigKVs_eq_dedupLast (template : List sectionLine) (selected : List Str) :
    fillConfigKVs template selected = dedupLast (fillConfigSettings template selected) := by
  have := emitFrom_eq_dedupLast [] (fillConfigSettings template selected)
  simpa [fillConfigKVs] using this

theorem dedupLast_cons_pos {s : kv} {rest : List kv}
    (h : rest.any (fun t => t.key == s.key) = true) :
    dedupLast (s :: rest) = dedupLast rest := by
  simp [dedupLast, h]

theorem dedupLast_cons_neg {s : kv} {rest : List kv}
    (h : ¬ rest.any (fun t => t.key == s.key) = true) :
    dedupLast (s :: rest) = s :: dedupLast rest := by
  simp [dedupLast, h]

theorem dedupLast_sublist : ∀ L : List kv, List.Sublist (dedupLast L) L := by
  intro L
  induction L with
  | nil => exact List.Sublist.refl _
  | cons s rest ih =>
    by_cases h : rest.any (fun t => t.key == s.key) = true
    · rw [dedupLast_cons_pos h]
      exact ih.cons s
    · rw [dedupLast_cons_neg h]
      exact ih.cons₂ s

theorem getLast?_cons_of_ne_nil {a : kv} {l : List kv} (h : l ≠ []) :
    (a :: l).getLast? = l.getLast? := by
  cases l with
  | nil => exact absurd rfl h
  | cons b t => rfl

theorem dedupLast_filter (k : Str) : ∀ L : List kv,
    (dedupLast L).filter (fun s => s.key == k)
      = ((L.filter (fun s => s.key == k)).getLast?).toList := by
  intro L
  induction L with
  | nil => rfl
  | cons s rest ih =>
    by_cases hb : rest.any (fun t => t.key == s.key) = true
    · rw [dedupLast_cons_pos hb, List.filter_cons]
      by_cases hk : s.key = k
      · rw [if_pos (by simp [hk])]
        have hne : rest.filter (fun t => t.key == k) ≠ [] := by
          simp only [List.any_eq_true] at hb
          obtain ⟨t, ht, htk⟩ := hb
          intro hnil
          have hnot := List.filter_eq_nil_iff.mp hnil t ht
          rw [beq_iff_eq] at htk
          rw [htk, hk] at hnot
          simp at hnot
        rw [getLast?_cons_of_ne_nil hne]
        exact ih
      · rw [if_neg (by simp [hk])]
        exact ih
    · rw [dedupLast_cons_neg hb, List.filter_cons, List.filter_cons]
      by_cases hk : s.key = k
      · rw [if_pos (by simp [hk]), if_pos (by simp [hk])]
        have hnone : ∀ t ∈ rest, ¬ t.key = k := by
          intro t ht htk
          exact hb (List.any_eq_true.mpr ⟨t, ht, by rw [beq_iff_eq, htk, hk]⟩)
        have hfil : rest.filter (fun t => t.key == k) = [] :=
          List.filter_eq_nil_iff.mpr (fun t ht => by simpa using hnone t ht)
        have hfil2 : (dedupLast rest).filter (fun t => t.key == k) = [] := by
          have hsub := (dedupLast_sublist rest).filter (fun t => t.key == k)
          rw [hfil] at hsub
          exact List.sublist_nil.mp hsub
        rw [hfil, hfil2]
        rfl
      · rw [if_neg (by simp [hk]), if_neg (by simp [hk])]
        exact ih

/-- The claims' concrete template: `TLP_ENABLE=0` before any section, then a
`[bat]` section with `TLP_ENABLE=1` and `CPU_SCALING=power`. -/
def exTemplate : List sectionLine :=
  [⟨defaultProfileName, ⟨"TLP_ENABLE".toList, "0".toList⟩⟩,
   ⟨"bat".toList, ⟨"TLP_ENABLE".toList, "1".toList⟩⟩,
   ⟨"bat".toList, ⟨"CPU_SCALING".toList, "power".toList⟩⟩]

/-- C1: last-write-wins merge.  For every template and valid non-empty
selection, each key that is set at all appears on exactly one output line,
with the value of the last applied setting of that key, and the output lines
form a sublist of the applied-settings sequence (each key sitting at the
position of its last write, which is what the emission filter keeps).  In
particular, for `exTemplate`, selecting `["bat"]` yields exactly
`TLP_ENABLE=1` then `CPU_SCALING=power`. -/
theorem fillConfig_last_write_wins (template : List sectionLine) (selected : List Str)
    (hsel : selected ≠ []) (k : Str)
    (hk : k ∈ (fillConfigSettings template selected).map kv.key) :
    ((fillConfigKVs template selected).filter (fun s => s.key == k)).length = 1
    ∧ (fillConfigKVs template selected).filter (fun s => s.key == k)
        = ((fillConfigSettings template selected).filter (fun s => s.key == k)).getLast?.toList
    ∧ List.Sublist (fillConfigKVs template selected) (fillConfigSettings template selected)
    ∧ fillConfigKVs exTemplate ["bat".toList]
        = [⟨"TLP_ENABLE".toList, "1".toList⟩, ⟨"CPU_SCALING".toList, "power".toList⟩] := by
  have hd := fillConfigKVs_eq_dedupLast template selected
  have hne : (fillConfigSettings template selected).filter (fun s => s.key == k) ≠ [] := by
    obtain ⟨s, hs, hsk⟩ := List.mem_map.mp hk
    intro hnil
    have := List.filter_eq_nil_iff.mp hnil s hs
    rw [hsk] at this
    simp at this
  have hfil : (fillConfigKVs template selected).filter (fun s => s.key == k)
      = ((fillConfigSettings template selected).filter (fun s => s.key == k)).getLast?.toList := by
    rw [hd]
    exact dedupLast_filter k _
  refine ⟨?_, hfil, ?_, by decide⟩
  · rw [hfil]
    obtain ⟨x, hx⟩ := Option.isSome_iff_exists.mp (List.getLast?_isSome.mpr hne)
    rw [hx]
    rfl
  · rw [hd]
    exact dedupLast_sublist _

theorem fillConfig_last_write_wins_witness :
    (["bat".toList] : List Str) ≠ []
    ∧ "TLP_ENABLE".toList ∈ (fillConfigSettings exTemplate ["bat".toList]).map kv.key
    ∧ (((fillConfigKVs exTemplate ["bat".toList]).filter
          (fun s => s.key == "TLP_ENABLE".toList)).length = 1
       ∧ (fillConfigKVs exTemplate ["bat".toList]).filter
            (fun s => s.key == "TLP_ENABLE".toList)
          = ((fillConfigSettings exTemplate ["bat".toList]).filter
              (fun s => s.key == "TLP_ENABLE".toList)).getLast?.toList
       ∧ List.Sublist (fillConfigKVs exTemplate ["bat".toList])
            (fillConfigSettings exTemplate ["bat".toList])
       ∧ fillConfigKVs exTemplate ["bat".toList]
          = [⟨"TLP_ENABLE".toList, "1".toList⟩, ⟨"CPU_SCALING".toList, "power".toList⟩]) :=
  ⟨by decide, by decide,
   fillConfig_last_write_wins exTemplate ["bat".toList] (by decide) "TLP_ENABLE".toList (by decide)⟩

theorem filter_not_self_eq (p : Str) (L : List sectionLine) :
    (L.filter (fun sl => !(sl.profile == p))).filter (fun sl => sl.profile == p) = [] := by
  rw [List.filter_filter]
  refine List.filter_eq_nil_iff.mpr ?_
  intro sl _
  cases h : sl.profile == p <;> simp [h]

theorem filter_not_profile_idem (p : Str) (L : List sectionLine) :
    (L.filter (fun sl => !(sl.profile == p))).filter (fun sl => !(sl.profile == p))
      = L.filter (fun sl => !(sl.profile == p)) := by
  rw [List.filter_filter]
  refine List.filter_congr ?_
  intro sl _
  cases h : sl.profile == p <;> simp [h]

theorem applyProfile_idem (p : Str) (st : FillState) :
    applyProfile p (applyProfile p st) = applyProfile p st := by
  simp only [applyProfile, filter_not_self_eq, filter_not_profile_idem,
    List.map_nil, List.append_nil]

theorem fillLoop_dup (p : Str) : ∀ (l1 l2 : List Str) (st : FillState),
    fillLoop (l1 ++ p :: p :: l2) st = fillLoop (l1 ++ p :: l2) st := by
  intro l1
  induction l1 with
  | nil =>
    intro l2 st
    simp only [List.nil_append, fillLoop, applyProfile_idem]
  | cons q l1 ih =>
    intro l2 st
    simp only [List.cons_append, fillLoop]
    exact ih l2 _

/-- C2: normalisation drops a leading "default" from the explicit selection,
and the effective application order is `["default"] ++` the normalised
selection; hence a selection starting with "default" resolves exactly like
the same selection with the leading "default" removed (when the remainder is
non-empty). -/
theorem fillConfig_leading_default (template : List sectionLine) (rest : List Str)
    (h : rest ≠ []) :
    normalizeSelected (defaultProfileName :: rest) = rest
    ∧ fillConfig template (defaultProfileName :: rest) = fillConfig template rest := by
  refine ⟨by simp [normalizeSelected], ?_⟩
  unfold fillConfig fillConfigKVs fillConfigSettings fillState
  cases rest with
  | nil => exact absurd rfl h
  | cons r rs =>
    by_cases hr : r = defaultProfileName
    · subst hr
      simp only [normalizeSelected, eq_self_iff_true, if_true]
      have hdup := fillLoop_dup defaultProfileName [] rs
        { template := template, cache := template, settings := [] }
      simp only [List.nil_append] at hdup
      rw [hdup]
    · simp only [normalizeSelected, eq_self_iff_true, if_true, if_neg hr]

theorem fillConfig_leading_default_witness :
    (["bat".toList] : List Str) ≠ []
    ∧ (normalizeSelected (defaultProfileName :: ["bat".toList]) = ["bat".toList]
       ∧ fillConfig exTemplate (defaultProfileName :: ["bat".toList])
          = fillConfig exTemplate ["bat".toList]) :=
  ⟨by decide, fillConfig_leading_default exTemplate ["bat".toList] (by decide)⟩

/-- C3: selecting the same profile twice in a row is equivalent to selecting
it once — the second pass finds every matching record already consumed.  In
particular `["default","bat","bat"]` resolves exactly like
`["default","bat"]`. -/
theorem fillConfig_duplicate_profile (template : List sectionLine)
    (a b : List Str) (p : Str) :
    fillConfig template (a ++ p :: p :: b) = fillConfig template (a ++ p :: b)
    ∧ fillConfig exTemplate ["default".toList, "bat".toList, "bat".toList]
        = fillConfig exTemplate ["default".toList, "bat".toList] := by
  constructor
  · unfold fillConfig fillConfigKVs fillConfigSettings fillState
    cases a with
    | nil =>
      by_cases hp : p = defaultProfileName
      · subst hp
        simp only [List.nil_append, normalizeSelected, eq_self_iff_true, if_true]
        have hdup := fillLoop_dup defaultProfileName [] b
          { template := template, cache := template, settings := [] }
        simp only [List.nil_append] at hdup
        rw [hdup]
      · simp only [List.nil_append, normalizeSelected, if_neg hp]
        have hdup := fillLoop_dup p [defaultProfileName] b
          { template := template, cache := template, settings := [] }
        simp only [List.cons_append, List.nil_append] at hdup
        rw [hdup]
    | cons x a1 =>
      by_cases hx : x = defaultProfileName
      · simp only [List.cons_append, normalizeSelected, if_pos hx]
        have hdup := fillLoop_dup p (defaultProfileName :: a1) b
          { template := template, cache := template, settings := [] }
        simp only [List.cons_append] at hdup
        rw [hdup]
      · simp only [List.cons_append, normalizeSelected, if_neg hx]
        have hdup := fillLoop_dup p (defaultProfileName :: x :: a1) b
          { template := template, cache := template, settings := [] }
        simp only [List.cons_append] at hdup
        rw [hdup]
  · rfl

/-- C10: the resolution loop never writes the caller's template slice — only
the clone (`templateCache`, a fresh backing array per `slices.Clone`) is
consumed destructively — so after `fillConfig` the template is unchanged. -/
theorem fillConfig_preserves_template (template : List sectionLine)
    (selected : List Str) (hsel : selected ≠ []) :
    (fillState template selected).template = template := by
  have hloop : ∀ (order : List Str) (st : FillState),
      (fillLoop order st).template = st.template := by
    intro order
    induction order with
    | nil => intro st; rfl
    | cons p ps ih =>
      intro st
      rw [fillLoop, ih]
      rfl
  exact hloop _ _

theorem fillConfig_preserves_template_witness :
    (["bat".toList] : List Str) ≠ []
    ∧ (fillState exTemplate ["bat".toList]).template = exTemplate :=
  ⟨by decide, fillConfig_preserves_template exTemplate ["bat".toList] (by decide)⟩

/-! ## Profile listing (`getProfiles`, main.go lines 131-146)

The Go function collects the profile names of all template records into a map
(which deduplicates them), deletes "default", copies the remaining names into
a slice and sorts it ascending, then prepends "default".  The map's random
iteration order is immaterial: after `slices.Sort` the slice is the unique
ascending enumeration of the name set, which is what `insertionSort` of the
deduplicated list produces here. -/

/-- Go `getProfiles`: "default" followed by the other distinct profile names
in ascending lexical order. -/
def getProfiles (sls : List sectionLine) : List Str :=
  defaultProfileName ::
    List.insertionSort (fun a b : Str => a ≤ b)
      ((sls.map sectionLine.profile).dedup.filter (fun p => !(p == defaultProfileName)))

/-- C8: `getProfiles` returns a duplicate-free list whose first element is
always "default" (exactly once, even when no record is tagged "default"),
followed by the remaining distinct profile names of the template in
ascending lexical order. -/
theorem getProfiles_spec (sls : List sectionLine) :
    (getProfiles sls).head? = some defaultProfileName
    ∧ (getProfiles sls).Nodup
    ∧ List.Sorted (· < ·) ((getProfiles sls).tail)
    ∧ ∀ p : Str, p ∈ (getProfiles sls).tail ↔
        (p ≠ defaultProfileName ∧ p ∈ sls.map sectionLine.profile) := by
  have hperm := List.perm_insertionSort (fun a b : Str => a ≤ b)
    ((sls.map sectionLine.profile).dedup.filter (fun p => !(p == defaultProfileName)))
  have hmem : ∀ p : Str, p ∈ (getProfiles sls).tail ↔
      (p ≠ defaultProfileName ∧ p ∈ sls.map sectionLine.profile) := by
    intro p
    have : p ∈ (getProfiles sls).tail ↔
        p ∈ (sls.map sectionLine.profile).dedup.filter (fun p => !(p == defaultProfileName)) :=
      hperm.mem_iff
    rw [this, List.mem_filter, List.mem_dedup]
    constructor
    · rintro ⟨hm, hne⟩
      refine ⟨?_, hm⟩
      simpa using hne
    · rintro ⟨hne, hm⟩
      exact ⟨hm, by simpa using hne⟩
  have hnodupTail : (getProfiles sls).tail.Nodup :=
    hperm.nodup_iff.mpr ((sls.map sectionLine.profile).nodup_dedup.filter _)
  have hsortedLe : List.Sorted (fun a b : Str => a ≤ b) ((getProfiles sls).tail) :=
    List.sorted_insertionSort _ _
  refine ⟨rfl, ?_, hsortedLe.lt_of_le hnodupTail, hmem⟩
  refine List.nodup_cons.mpr ⟨?_, hnodupTail⟩
  intro hmemd
  exact absurd rfl ((hmem defaultProfileName).mp hmemd).1

/-! ## Selection validation (`lastIndex` and `parseInput`, main.go lines 204-252)

`lastIndex` scans its slice from the last index down to (and excluding)
index 0, returning the first index holding `v`, i.e. the highest index `≥ 1`
holding `v`, and `-1` when there is none.  `parseInput` rejects the selected
profiles when `len(profiles) > 0 && lastIndex(profiles, "default") > 0`. -/

/-- The descending scan of Go `lastIndex` (main.go lines 204-211), with the
current loop index as fuel; the loop body never reads index 0. -/
def lastIndexLoop (s : List Str) (v : Str) : Nat → Int
  | 0 => -1
  | i + 1 => if s.getD (i + 1) [] = v then ((i + 1 : Nat) : Int) else lastIndexLoop s v i

/-- Go `lastIndex`: start the scan at `len(s) - 1`. -/
def lastIndex (s : List Str) (v : Str) : Int := lastIndexLoop s v (s.length - 1)

/-- The rejection condition of `parseInput` (main.go lines 246-249). -/
def parseInputRejects (profiles : List Str) : Bool :=
  decide (0 < profiles.length) && decide (0 < lastIndex profiles defaultProfileName)

theorem lastIndexLoop_pos_iff (s : List Str) (v : Str) :
    ∀ j, j < s.length → (0 < lastIndexLoop s v j ↔
      ∃ i : Fin s.length, 1 ≤ i.val ∧ i.val ≤ j ∧ s.get i = v) := by
  intro j
  induction j with
  | zero =>
    intro _
    simp only [lastIndexLoop]
    constructor
    · intro h
      exact absurd h (by omega)
    · rintro ⟨i, h1, h2, -⟩
      omega
  | succ j ih =>
    intro hj
    have hget : s.getD (j + 1) [] = s.get ⟨j + 1, hj⟩ := List.getD_eq_getElem s [] hj
    simp only [lastIndexLoop, hget]
    by_cases hv : s.get ⟨j + 1, hj⟩ = v
    · rw [if_pos hv]
      constructor
      · intro _
        exact ⟨⟨j + 1, hj⟩, by show 1 ≤ j + 1; omega, le_refl _, hv⟩
      · intro _
        omega
    · rw [if_neg hv]
      rw [ih (by omega)]
      constructor
      · rintro ⟨i, h1, h2, h3⟩
        exact ⟨i, h1, by omega, h3⟩
      · rintro ⟨i, h1, h2, h3⟩
        refine ⟨i, h1, ?_, h3⟩
        rcases Nat.lt_or_ge i.val (j + 1) with hlt | hge
        · omega
        · exfalso
          have : i = ⟨j + 1, hj⟩ := Fin.ext (by show i.val = j + 1; omega)
          rw [this] at h3
          exact hv h3

/-- C4: `parseInput` rejects the selection exactly when "default" occurs at
some position other than the first (also when it additionally occurs first);
a selection with "default" only as the sole or first entry is accepted. -/
theorem parseInput_default_position (l : List Str) :
    parseInputRejects l = true ↔
      ∃ i : Fin l.length, 0 < i.val ∧ l.get i = defaultProfileName := by
  cases l with
  | nil =>
    constructor
    · intro h
      simp [parseInputRejects] at h
    · rintro ⟨i, -⟩
      exact absurd i.isLt (by simp)
  | cons x xs =>
    have hlen : (x :: xs).length - 1 < (x :: xs).length := by simp
    simp only [parseInputRejects, lastIndex, Bool.and_eq_true, decide_eq_true_eq]
    rw [lastIndexLoop_pos_iff _ _ _ hlen]
    constructor
    · rintro ⟨-, i, h1, -, h3⟩
      exact ⟨i, by omega, h3⟩
    · rintro ⟨i, hi, hv⟩
      have hisLt := i.isLt
      exact ⟨by simp, i, by omega, by omega, hv⟩

/-! ## Template parsing (`parseTemplate`, main.go lines 148-202)

The reader yields the file one line at a time (`bufio.ReadString('\n')`); the
final chunk is processed even without a terminating newline, and after
`strings.TrimSpace` the line terminator is gone either way, so lines are
modelled without their terminators.  The regexes become character-list
predicates:
  * `sectionRegex = ^\[.*\]$` — first character `[`, last character `]`,
    length at least 2;
  * `validSectionNameRegex = ^[\w\d]+$` — non-empty, word characters only;
  * `keyValRegex = ^([\w]+?)=(.+)$` — since `=` is not a word character, a
    match splits the line at the first `=`: the key is the maximal leading
    run of word characters (non-empty), followed by `=`, followed by a
    non-empty value (which may itself contain `=`). -/

/-- Match of `keyValRegex` (main.go line 150): key and value, or none. -/
def parseKeyVal (cs : Str) : Option kv :=
  match cs.dropWhile isWordChar with
  | [] => none
  | c :: v =>
    if c == '=' then
      if (cs.takeWhile isWordChar).isEmpty || v.isEmpty then none
      else some ⟨cs.takeWhile isWordChar, v⟩
    else none

/-- Match of `sectionRegex = ^\[.*\]$` (main.go line 148). -/
def isSectionForm (cs : Str) : Bool :=
  match cs with
  | [] => false
  | c :: rest => (c == '[') && !rest.isEmpty && (rest.getLast? == some ']')

/-- Go `line[1 : len(line)-1]`: the text between the brackets. -/
def sectionNameOf (cs : Str) : Str := (cs.drop 1).dropLast

/-- Match of `validSectionNameRegex = ^[\w\d]+$` (main.go line 149). -/
def isValidName (cs : Str) : Bool := !cs.isEmpty && cs.all isWordChar

/-- The two terminal parse errors of `parseTemplate` (main.go lines 179, 186),
each carrying the data printed in the Go error message. -/
inductive parseError where
  | badSection (name : Str) (lineNum : Nat)
  | badLine (lineNum : Nat) (raw : Str)
deriving DecidableEq

/-- The line loop of `parseTemplate` (main.go lines 160-201): line counter,
current profile context, remaining lines, records accumulated so far. -/
def parseLines : Nat → Str → List Str → List sectionLine → Except parseError (List sectionLine)
  | _, _, [], acc => .ok acc
  | n, cur, l :: rest, acc =>
    if (trimStr l).isEmpty || ((trimStr l).head? == some '#') then
      parseLines (n + 1) cur rest acc
    else if isSectionForm (trimStr l) then
      if isValidName (sectionNameOf (trimStr l)) then
        parseLines (n + 1) (sectionNameOf (trimStr l)) rest acc
      else .error (.badSection (sectionNameOf (trimStr l)) n)
    else
      match parseKeyVal (trimStr l) with
      | some s => parseLines (n + 1) cur rest (acc ++ [⟨cur, s⟩])
      | none => .error (.badLine n (trimStr l))

/-- `parseTemplate`'s loop started on a list of lines: line numbers start at
1, the profile context starts as "default", no records yet. -/
def parseTemplateLines (ls : List Str) : Except parseError (List sectionLine) :=
  parseLines 1 defaultProfileName ls []

/-- The chunks delivered by `bufio.ReadString('\n')`, without their
terminators: split at every newline; a trailing newline yields a final empty
chunk (which the loop skips), a missing final newline leaves the last chunk
as is. -/
def splitLines : Str → List Str
  | [] => [[]]
  | c :: rest =>
    if c = '\n' then [] :: splitLines rest
    else
      match splitLines rest with
      | [] => [[c]]
      | l :: ls => (c :: l) :: ls

/-- Go `parseTemplate` on the template text. -/
def parseTemplate (text : Str) : Except parseError (List sectionLine) :=
  parseTemplateLines (splitLines text)

theorem parseKeyVal_head {t : Str} {s : kv} (h : parseKeyVal t = some s) :
    ∃ c r, t = c :: r ∧ isWordChar c = true := by
  cases t with
  | nil => exact absurd h (by simp [parseKeyVal])
  | cons c r =>
    refine ⟨c, r, rfl, ?_⟩
    cases hw : isWordChar c with
    | true => rfl
    | false =>
      exfalso
      have hdrop : (c :: r : Str).dropWhile isWordChar = c :: r :=
        List.dropWhile_cons_of_neg (by simp [hw])
      have htake : (c :: r : Str).takeWhile isWordChar = [] :=
        List.takeWhile_cons_of_neg (by simp [hw])
      rw [parseKeyVal, hdrop, htake] at h
      by_cases hc : c = '='
      · simp [hc] at h
      · simp [hc] at h

theorem parseKeyVal_not_blank {t : Str} {s : kv} (h : parseKeyVal t = some s) :
    t.isEmpty = false ∧ (t.head? == some '#') = false ∧ isSectionForm t = false := by
  obtain ⟨c, r, rfl, hw⟩ := parseKeyVal_head h
  have hhash : c ≠ '#' := by
    intro hc
    rw [hc] at hw
    simp [isWordChar] at hw
  have hbrack : c ≠ '[' := by
    intro hc
    rw [hc] at hw
    simp [isWordChar] at hw
  refine ⟨rfl, by simpa using hhash, ?_⟩
  simp only [isSectionForm]
  rw [show (c == '[') = false by simpa using hbrack]
  rfl

/-- A line the parser consumes without error: blank, comment, valid section
header, or valid key=value line (after stripping). -/
def lineOk (l : Str) : Bool :=
  (trimStr l).isEmpty || ((trimStr l).head? == some '#')
    || (isSectionForm (trimStr l) && isValidName (sectionNameOf (trimStr l)))
    || (parseKeyVal (trimStr l)).isSome

/-- The profile context after consuming a list of lines (mirrors the branch
structure of `parseLines`; only valid section headers change it). -/
def profileAfter (cur : Str) : List Str → Str
  | [] => cur
  | l :: rest =>
    if (trimStr l).isEmpty || ((trimStr l).head? == some '#') then profileAfter cur rest
    else if isSectionForm (trimStr l) then profileAfter (sectionNameOf (trimStr l)) rest
    else profileAfter cur rest

/-- The records produced while consuming a list of error-free lines (mirrors
the branch structure of `parseLines`). -/
def recordsOf (cur : Str) : List Str → List sectionLine
  | [] => []
  | l :: rest =>
    if (trimStr l).isEmpty || ((trimStr l).head? == some '#') then recordsOf cur rest
    else if isSectionForm (trimStr l) then recordsOf (sectionNameOf (trimStr l)) rest
    else
      match parseKeyVal (trimStr l) with
      | some s => ⟨cur, s⟩ :: recordsOf cur rest
      | none => recordsOf cur rest

theorem lineOk_cases {l : Str} (h : lineOk l = true)
    (hb : ¬ ((trimStr l).isEmpty || ((trimStr l).head? == some '#')) = true) :
    (isSectionForm (trimStr l) = true ∧ isValidName (sectionNameOf (trimStr l)) = true)
    ∨ (isSectionForm (trimStr l) = false ∧ ∃ s, parseKeyVal (trimStr l) = some s) := by
  simp only [lineOk, Bool.or_eq_true, Bool.and_eq_true] at h
  simp only [Bool.or_eq_true, not_or] at hb
  rcases h with ((h1 | h2) | h3) | h4
  · exact absurd h1 hb.1
  · exact absurd h2 hb.2
  · exact Or.inl h3
  · obtain ⟨s, hs⟩ := Option.isSome_iff_exists.mp h4
    exact Or.inr ⟨(parseKeyVal_not_blank hs).2.2, s, hs⟩

theorem parseLines_ok_run : ∀ (pre : List Str), (∀ l ∈ pre, lineOk l = true) →
    ∀ (n : Nat) (cur : Str) (ls : List Str) (acc : List sectionLine),
    parseLines n cur (pre ++ ls) acc
      = parseLines (n + pre.length) (profileAfter cur pre) ls (acc ++ recordsOf cur pre) := by
  intro pre
  induction pre with
  | nil =>
    intro _ n cur ls acc
    simp [profileAfter, recordsOf]
  | cons l pre ih =>
    intro h n cur ls acc
    have hl := h l (List.mem_cons_self _ _)
    have hrest : ∀ x ∈ pre, lineOk x = true := fun x hx => h x (List.mem_cons_of_mem _ hx)
    by_cases hb : ((trimStr l).isEmpty || ((trimStr l).head? == some '#')) = true
    · simp only [List.cons_append, parseLines, if_pos hb, profileAfter, recordsOf, List.append_eq]
      rw [ih hrest (n + 1) cur ls acc]
      rw [show n + 1 + pre.length = n + (pre.length + 1) from by omega]
      simp
    · rcases lineOk_cases hl hb with ⟨hs, hv⟩ | ⟨hs, s, hkv⟩
      · simp only [List.cons_append, parseLines, if_neg hb, hs, if_pos hv, if_true,
          profileAfter, recordsOf, List.append_eq]
        rw [ih hrest (n + 1) (sectionNameOf (trimStr l)) ls acc]
        rw [show n + 1 + pre.length = n + (pre.length + 1) from by omega]
        simp
      · simp only [List.cons_append, parseLines, if_neg hb, hs, hkv, Bool.false_eq_true,
          if_false, profileAfter, recordsOf, List.append_eq]
        rw [ih hrest (n + 1) cur ls (acc ++ [sectionLine.mk cur s])]
        rw [show n + 1 + pre.length = n + (pre.length + 1) from by omega]
        simp

theorem profileAfter_no_section : ∀ (pre : List Str) (cur : Str),
    (∀ x ∈ pre, isSectionForm (trimStr x) = false) → profileAfter cur pre = cur := by
  intro pre
  induction pre with
  | nil => intro cur _; rfl
  | cons l pre ih =>
    intro cur h
    have hl := h l (List.mem_cons_self _ _)
    have hrest : ∀ x ∈ pre, isSectionForm (trimStr x) = false :=
      fun x hx => h x (List.mem_cons_of_mem _ hx)
    by_cases hb : ((trimStr l).isEmpty || ((trimStr l).head? == some '#')) = true
    · simp only [profileAfter, if_pos hb]
      exact ih cur hrest
    · simp only [profileAfter, if_neg hb, hl, Bool.false_eq_true, if_false]
      exact ih cur hrest

/-- C5: a line whose stripped form matches `key=value` (key: one or more word
characters; value: the non-empty remainder after the first `=`, which may
itself contain `=`) is recorded as a record tagged with the current profile
context, and the context is "default" while no section header has been
seen. -/
theorem parseTemplate_setting_line (pre : List Str) (l : Str) (s : kv)
    (hpre : pre.all lineOk = true)
    (hkv : parseKeyVal (trimStr l) = some s) :
    parseTemplateLines (pre ++ [l])
      = .ok (recordsOf defaultProfileName pre
          ++ [⟨profileAfter defaultProfileName pre, s⟩])
    ∧ (pre.all (fun x => !isSectionForm (trimStr x)) = true →
        profileAfter defaultProfileName pre = defaultProfileName) := by
  have hpre' : ∀ x ∈ pre, lineOk x = true := by
    intro x hx
    exact List.all_eq_true.mp hpre x hx
  constructor
  · rw [parseTemplateLines, parseLines_ok_run pre hpre']
    obtain ⟨hbe, hbh, hbs⟩ := parseKeyVal_not_blank hkv
    simp only [parseLines, hbe, hbh, Bool.or_self, Bool.false_eq_true, if_false, hbs, hkv,
      List.nil_append]
  · intro hns
    refine profileAfter_no_section pre defaultProfileName ?_
    intro x hx
    have := List.all_eq_true.mp hns x hx
    simpa using this

theorem parseTemplate_setting_line_witness :
    (["[bat]".toList] : List Str).all lineOk = true
    ∧ (parseTemplateLines (["[bat]".toList] ++ ["X=1".toList])
        = .ok (recordsOf defaultProfileName ["[bat]".toList]
            ++ [⟨profileAfter defaultProfileName ["[bat]".toList], ⟨"X".toList, "1".toList⟩⟩])
       ∧ ((["[bat]".toList] : List Str).all (fun x => !isSectionForm (trimStr x)) = true →
           profileAfter defaultProfileName ["[bat]".toList] = defaultProfileName)) :=
  ⟨by decide,
   parseTemplate_setting_line ["[bat]".toList] "X=1".toList ⟨"X".toList, "1".toList⟩
     (by decide) (by decide)⟩

/-- C6: a stripped line that is bracket-delimited but whose section name is
not made of word characters only is a terminal parse error carrying the
offending line number; a stripped line that is non-blank, non-comment,
not a section header and not a valid key=value pair is a terminal parse
error carrying the line number and the (stripped) line content.  In both
cases the result is an error, so no template is returned. -/
theorem parseTemplate_terminal_errors (pre : List Str) (l : Str) (rest : List Str)
    (hpre : pre.all lineOk = true) :
    (isSectionForm (trimStr l) = true → isValidName (sectionNameOf (trimStr l)) = false →
      parseTemplateLines (pre ++ l :: rest)
        = .error (.badSection (sectionNameOf (trimStr l)) (pre.length + 1)))
    ∧ ((trimStr l).isEmpty = false → ((trimStr l).head? == some '#') = false →
        isSectionForm (trimStr l) = false → parseKeyVal (trimStr l) = none →
        parseTemplateLines (pre ++ l :: rest)
          = .error (.badLine (pre.length + 1) (trimStr l))) := by
  have hpre' : ∀ x ∈ pre, lineOk x = true := by
    intro x hx
    exact List.all_eq_true.mp hpre x hx
  constructor
  · intro hs hv
    have hne : (trimStr l).isEmpty = false := by
      cases ht : trimStr l with
      | nil => rw [ht] at hs; exact absurd hs (by simp [isSectionForm])
      | cons c r => rfl
    have hnh : ((trimStr l).head? == some '#') = false := by
      cases ht : trimStr l with
      | nil => rw [ht] at hs; exact absurd hs (by simp [isSectionForm])
      | cons c r =>
        rw [ht] at hs
        simp only [isSectionForm, Bool.and_eq_true, beq_iff_eq] at hs
        rw [hs.1.1]
        simp
    rw [parseTemplateLines, parseLines_ok_run pre hpre']
    simp only [parseLines, hne, hnh, Bool.or_self, Bool.false_eq_true, if_false, hs, if_true,
      hv]
    rw [show 1 + pre.length = pre.length + 1 from by omega]
  · intro hne hnh hns hnokv
    rw [parseTemplateLines, parseLines_ok_run pre hpre']
    simp only [parseLines, hne, hnh, Bool.or_self, Bool.false_eq_true, if_false, hns, hnokv]
    rw [show 1 + pre.length = pre.length + 1 from by omega]

theorem parseTemplate_terminal_errors_witness :
    ((["TLP_ENABLE=0".toList] : List Str).all lineOk = true
     ∧ parseTemplateLines (["TLP_ENABLE=0".toList] ++ "[b@d]".toList :: [])
        = .error (.badSection (sectionNameOf (trimStr "[b@d]".toList)) 2))
    ∧ ((["TLP_ENABLE=0".toList] : List Str).all lineOk = true
       ∧ parseTemplateLines (["TLP_ENABLE=0".toList] ++ "no equals sign".toList :: [])
          = .error (.badLine 2 (trimStr "no equals sign".toList))) :=
  ⟨⟨by decide,
    (parseTemplate_terminal_errors ["TLP_ENABLE=0".toList] "[b@d]".toList [] (by decide)).1
      (by decide) (by decide)⟩,
   ⟨by decide,
    (parseTemplate_terminal_errors ["TLP_ENABLE=0".toList] "no equals sign".toList []
        (by decide)).2
      (by decide) (by decide) (by decide) (by decide)⟩⟩

theorem splitLines_ne_nil : ∀ cs : Str, splitLines cs ≠ [] := by
  intro cs
  cases cs with
  | nil => simp [splitLines]
  | cons c rest =>
    simp only [splitLines]
    by_cases hc : c = '\n'
    · rw [if_pos hc]
      simp
    · rw [if_neg hc]
      cases h : splitLines rest <;> simp

theorem splitLines_append_newline : ∀ cs : Str,
    splitLines (cs ++ ['\n']) = splitLines cs ++ [[]] := by
  intro cs
  induction cs with
  | nil => rfl
  | cons c rest ih =>
    by_cases hc : c = '\n'
    · simp only [List.cons_append, splitLines, if_pos hc, List.append_eq, ih]
    · simp only [List.cons_append, splitLines, if_neg hc, List.append_eq, ih]
      cases h : splitLines rest with
      | nil => exact absurd h (splitLines_ne_nil rest)
      | cons l ls => simp

theorem parseLines_trailing_blank : ∀ (ls : List Str) (n : Nat) (cur : Str)
    (acc : List sectionLine), parseLines n cur (ls ++ [[]]) acc = parseLines n cur ls acc := by
  intro ls
  induction ls with
  | nil =>
    intro n cur acc
    simp [parseLines, trimStr]
  | cons l ls ih =>
    intro n cur acc
    simp only [List.cons_append, parseLines]
    split
    · exact ih _ _ _
    · split
      · split
        · exact ih _ _ _
        · rfl
      · split
        · exact ih _ _ _
        · rfl

/-- C7: a final line without a terminating newline is processed like any
other line, so parsing a text with and without a final newline produces the
same result (the trailing newline only adds a final empty chunk, which the
loop skips). -/
theorem parseTemplate_trailing_newline (text : Str) :
    parseTemplate (text ++ ['\n']) = parseTemplate text := by
  rw [parseTemplate, parseTemplate, splitLines_append_newline]
  exact parseLines_trailing_blank _ _ _ _

/-! ## The historical parser variant (src/unnamed/part_001, lines 110-167)

Differences from main.go's parser:
  * its section regex `\[[\w\d]+\]$` is anchored only at the end of the
    line, so it matches exactly when the line ends with `[` followed by a
    non-empty run of word characters followed by `]` — reading from the end:
    last character `]`, a non-empty maximal word run before it, and `[`
    immediately before that run;
  * a matching line's profile is still taken as `line[1:len(line)-1]`;
  * there is no section-name validation;
  * a malformed setting line is logged and skipped instead of aborting;
  * its key=value regex `^([A-Za-z0-9_]+)=(.+)$` denotes the same language
    as main.go's `^([\w]+?)=(.+)$` (both: maximal non-empty leading word-run
    key, first `=`, non-empty value), so `parseKeyVal` is shared. -/

/-- Match of part_001's `sectionRegex = \[[\w\d]+\]$` (part_001 line 110):
the regex is anchored only at the end, so it matches exactly when the last
character is `]`, the maximal word-character run right before it (read here
via `dropLast.reverse`) is non-empty, and the character immediately before
that run is `[`. -/
def matchesSectionB (cs : Str) : Bool :=
  (cs.getLast? == some ']')
    && !((cs.dropLast.reverse).takeWhile isWordChar).isEmpty
    && (((cs.dropLast.reverse).dropWhile isWordChar).head? == some '[')

/-- The line loop of part_001's `parseTemplate` (lines 127-166); it cannot
fail, malformed setting lines are skipped. -/
def parseLinesB (cur : Str) : List Str → List sectionLine
  | [] => []
  | l :: rest =>
    if (trimStr l).isEmpty || ((trimStr l).head? == some '#') then parseLinesB cur rest
    else if matchesSectionB (trimStr l) then parseLinesB (sectionNameOf (trimStr l)) rest
    else
      match parseKeyVal (trimStr l) with
      | some s => ⟨cur, s⟩ :: parseLinesB cur rest
      | none => parseLinesB cur rest

/-- A line that is well formed in the sense of the original claim and whose
key=value form does not additionally end in a bracketed word group (which
part_001's unanchored section regex would capture). -/
def lineOkB (l : Str) : Bool :=
  (trimStr l).isEmpty || ((trimStr l).head? == some '#')
    || (isSectionForm (trimStr l) && isValidName (sectionNameOf (trimStr l)))
    || ((parseKeyVal (trimStr l)).isSome && !matchesSectionB (trimStr l))

theorem takeWhile_append_all {f : Char → Bool} :
    ∀ (xs ys : List Char), (∀ x ∈ xs, f x = true) →
      (xs ++ ys).takeWhile f = xs ++ ys.takeWhile f := by
  intro xs
  induction xs with
  | nil => intro ys _; rfl
  | cons x xs ih =>
    intro ys h
    have hx := h x (List.mem_cons_self _ _)
    simp only [List.cons_append, List.takeWhile_cons, hx, if_true]
    rw [ih ys (fun a ha => h a (List.mem_cons_of_mem _ ha))]

theorem dropWhile_append_all {f : Char → Bool} :
    ∀ (xs ys : List Char), (∀ x ∈ xs, f x = true) →
      (xs ++ ys).dropWhile f = ys.dropWhile f := by
  intro xs
  induction xs with
  | nil => intro ys _; rfl
  | cons x xs ih =>
    intro ys h
    have hx := h x (List.mem_cons_self _ _)
    simp only [List.cons_append, List.dropWhile_cons, hx, if_true]
    exact ih ys (fun a ha => h a (List.mem_cons_of_mem _ ha))

theorem isSectionForm_matchesB {t : Str} (hs : isSectionForm t = true)
    (hv : isValidName (sectionNameOf t) = true) : matchesSectionB t = true := by
  cases t with
  | nil => exact absurd hs (by simp [isSectionForm])
  | cons c r =>
    simp only [isSectionForm, Bool.and_eq_true, beq_iff_eq, Bool.not_eq_true'] at hs
    obtain ⟨⟨hc, hrne⟩, hlast⟩ := hs
    have hrne' : r ≠ [] := by
      intro h0
      rw [h0] at hrne
      simp at hrne
    have hr : r.dropLast ++ [']'] = r := by
      have h1 := List.dropLast_append_getLast hrne'
      have h2 : r.getLast hrne' = ']' := by
        have h3 := List.getLast?_eq_getLast r hrne'
        rw [h3] at hlast
        exact Option.some.inj hlast
      rw [h2] at h1
      exact h1
    have hname : sectionNameOf (c :: r) = r.dropLast := by
      simp [sectionNameOf]
    rw [hname] at hv
    simp only [isValidName, Bool.and_eq_true, Bool.not_eq_true', List.all_eq_true] at hv
    obtain ⟨hmne, hmword⟩ := hv
    have hmne' : r.dropLast ≠ [] := by
      intro h0
      rw [h0] at hmne
      simp at hmne
    have hcons : (c :: r : Str) = (c :: r.dropLast) ++ [']'] := by
      conv_lhs => rw [← hr]
      simp
    have hlast2 : (c :: r : Str).getLast? = some ']' := by
      rw [hcons]
      exact List.getLast?_concat _
    have hdl : (c :: r : Str).dropLast = c :: r.dropLast := by
      rw [hcons]
      exact List.dropLast_concat
    have hrev : (c :: r : Str).dropLast.reverse = r.dropLast.reverse ++ ['['] := by
      rw [hdl, hc]
      simp
    have hwordrev : ∀ x ∈ r.dropLast.reverse, isWordChar x = true := by
      intro x hx
      exact hmword x (List.mem_reverse.mp hx)
    rw [matchesSectionB, hlast2, hrev]
    rw [takeWhile_append_all _ _ hwordrev, dropWhile_append_all _ _ hwordrev]
    have hob : (['['] : Str).takeWhile isWordChar = [] := by
      simp [List.takeWhile_cons, isWordChar]
    rw [hob]
    simp only [List.append_nil, List.dropWhile_cons]
    rw [show isWordChar '[' = false from by simp [isWordChar]]
    simp only [Bool.false_eq_true, if_false]
    have hrevne : r.dropLast.reverse ≠ [] := by
      simpa using hmne'
    simp [hrevne]

theorem lineOkB_cases {l : Str} (h : lineOkB l = true)
    (hb : ¬ ((trimStr l).isEmpty || ((trimStr l).head? == some '#')) = true) :
    (isSectionForm (trimStr l) = true ∧ isValidName (sectionNameOf (trimStr l)) = true
      ∧ matchesSectionB (trimStr l) = true)
    ∨ (isSectionForm (trimStr l) = false ∧ matchesSectionB (trimStr l) = false
        ∧ ∃ s, parseKeyVal (trimStr l) = some s) := by
  simp only [lineOkB, Bool.or_eq_true, Bool.and_eq_true] at h
  simp only [Bool.or_eq_true, not_or] at hb
  rcases h with ((h1 | h2) | h3) | h4
  · exact absurd h1 hb.1
  · exact absurd h2 hb.2
  · exact Or.inl ⟨h3.1, h3.2, isSectionForm_matchesB h3.1 h3.2⟩
  · obtain ⟨s, hs⟩ := Option.isSome_iff_exists.mp h4.1
    refine Or.inr ⟨(parseKeyVal_not_blank hs).2.2, ?_, s, hs⟩
    simpa using h4.2

theorem parseLines_eq_parseLinesB : ∀ (ls : List Str), (∀ l ∈ ls, lineOkB l = true) →
    ∀ (n : Nat) (cur : Str) (acc : List sectionLine),
    parseLines n cur ls acc = .ok (acc ++ parseLinesB cur ls) := by
  intro ls
  induction ls with
  | nil =>
    intro _ n cur acc
    simp [parseLines, parseLinesB]
  | cons l ls ih =>
    intro h n cur acc
    have hl := h l (List.mem_cons_self _ _)
    have hrest : ∀ x ∈ ls, lineOkB x = true := fun x hx => h x (List.mem_cons_of_mem _ hx)
    by_cases hb : ((trimStr l).isEmpty || ((trimStr l).head? == some '#')) = true
    · simp only [parseLines, parseLinesB, if_pos hb]
      exact ih hrest _ _ _
    · rcases lineOkB_cases hl hb with ⟨hs, hv, hm⟩ | ⟨hs, hm, s, hkv⟩
      · simp only [parseLines, parseLinesB, if_neg hb, hs, if_true, hv, hm]
        exact ih hrest _ _ _
      · simp only [parseLines, parseLinesB, if_neg hb, hs, hm, Bool.false_eq_true, if_false,
          hkv]
        rw [ih hrest (n + 1) cur (acc ++ [sectionLine.mk cur s])]
        simp

/-- C9 counterexample: `A=[x]` is a well-formed key=value line in the sense
of the claim (word-character key `A`, non-empty value `[x]`), yet main.go's
parser records it while part_001's parser — whose section regex is anchored
only at the end of the line — treats it as a section header and records
nothing, so the two parsers do not produce identical record sequences on all
well-formed input. -/
theorem parsers_equiv_counterexample :
    (["A=[x]".toList] : List Str).all lineOk = true
    ∧ parseTemplateLines ["A=[x]".toList]
        = .ok [⟨defaultProfileName, ⟨"A".toList, "[x]".toList⟩⟩]
    ∧ parseLinesB defaultProfileName ["A=[x]".toList] = [] :=
  ⟨by decide, rfl, rfl⟩

/-- C9 (amended): the two parser variants are equivalent on well-formed
input provided no key=value line also ends in `[` + word characters + `]`
(which part_001's end-anchored section regex would capture): on such input
main.go's parser succeeds and both produce identical record sequences. -/
theorem parsers_equiv_wordBracketFree (ls : List Str) (h : ls.all lineOkB = true) :
    parseTemplateLines ls = .ok (parseLinesB defaultProfileName ls) := by
  have h' : ∀ l ∈ ls, lineOkB l = true := fun l hl => List.all_eq_true.mp h l hl
  have := parseLines_eq_parseLinesB ls h' 1 defaultProfileName []
  simpa [parseTemplateLines] using this

theorem parsers_equiv_wordBracketFree_witness :
    (["[bat]".toList, "X=1".toList] : List Str).all lineOkB = true
    ∧ parseTemplateLines ["[bat]".toList, "X=1".toList]
        = .ok (parseLinesB defaultProfileName ["[bat]".toList, "X=1".toList]) :=
  ⟨by decide, parsers_equiv_wordBracketFree ["[bat]".toList, "X=1".toList] (by decide)⟩
